import Mathlib

/-!
Shallow embedding of pythonutilslib (`src/utils.py`), a module of stateless
utility functions, together with proofs of the specification claims about it.

Modelling conventions:
* Python `str` is modelled as `String` (a structure wrapping `List Char`);
  Python `int` as `Int` (both are arbitrary precision); Python lists as `List`.
* CPython `set` iteration order is implementation-defined (it depends on the
  hash table layout).  We model `list(set(xs))` as the elements of `xs` in
  first-insertion order with duplicates dropped (`pyList`).  Claims that
  depend only on membership and duplicate-freeness are insensitive to this
  choice; the one claim that depends on the order (list equality of unions)
  is settled at an input where CPython's real order provably differs as well,
  because the two elements collide in the initial hash table.
* Fallible operations return `Except`; the ambient file system is threaded
  explicitly through `create_directory`.
-/

namespace Utils

/-- Inserting the elements of a list into a Python set one by one, having
already seen the elements of `seen`: an element already present is skipped,
a new element is recorded.  The result lists the newly inserted elements in
insertion order. -/
def pySetList {α : Type} [DecidableEq α] (seen : List α) : List α → List α
  | [] => []
  | a :: l => if a ∈ seen then pySetList seen l else a :: pySetList (a :: seen) l

/-- Model of `list(set(xs))`: the distinct elements of `xs`, each kept at its
first occurrence (first-insertion order).  Defined from the source's use of
Python sets built by inserting `xs` left to right. -/
def pyList {α : Type} [DecidableEq α] (l : List α) : List α :=
  pySetList [] l

/-- Embeds `Utils.list_intersection`: `list(set(list1) & set(list2))`.
The result holds exactly the elements present in both lists, once each. -/
def list_intersection {α : Type} [DecidableEq α] (list1 list2 : List α) : List α :=
  (pyList list1).filter (fun x => decide (x ∈ list2))

/-- Embeds `Utils.list_union`: `list(set(list1) | set(list2))`.  CPython
builds the union by copying `set(list1)` and inserting the elements of
`set(list2)`, so the insertion history is `list1 ++ list2`. -/
def list_union {α : Type} [DecidableEq α] (list1 list2 : List α) : List α :=
  pyList (list1 ++ list2)

/-- Embeds `Utils.list_difference`: `list(set(list1) - set(list2))`. -/
def list_difference {α : Type} [DecidableEq α] (list1 list2 : List α) : List α :=
  (pyList list1).filter (fun x => decide (x ∉ list2))

/-- Embeds `Utils.reverse_string`: `text[::-1]`. -/
def reverse_string (text : String) : String :=
  ⟨text.data.reverse⟩

/-- Embeds `Utils.remove_duplicates`: `''.join(sorted(set(text), key=text.index))`.
The sort keys `text.index(c)` are pairwise distinct over the distinct
characters of `text`, so sorting the set by first index yields exactly the
distinct characters in first-occurrence order, i.e. `pyList text.data`
(independently of the set's own iteration order). -/
def remove_duplicates (text : String) : String :=
  ⟨pyList text.data⟩

/-- The regex class `[A-Z]` of the source: ASCII uppercase letters. -/
def isUpperAscii (c : Char) : Bool :=
  65 ≤ c.toNat && c.toNat ≤ 90

/-- Model of `str.lower()` on the ASCII fragment: maps `A`..`Z` to `a`..`z`
and leaves every other character unchanged.  (Python's `lower()` also folds
non-ASCII letters; the claims under proof only concern ASCII inputs and the
underscore, on which the two agree.) -/
def toLowerAscii (c : Char) : Char :=
  if isUpperAscii c then Char.ofNat (c.toNat + 32) else c

/-- The action of `re.sub(r'(?<!^)(?=[A-Z])', '_', text)` on every position
after the first: an underscore is inserted before each ASCII uppercase
letter. -/
def camelTail : List Char → List Char
  | [] => []
  | c :: rest => (if isUpperAscii c then ['_', c] else [c]) ++ camelTail rest

/-- The full substitution `re.sub(r'(?<!^)(?=[A-Z])', '_', text)`: the
lookbehind `(?<!^)` exempts position 0, so the first character is copied
unchanged and `camelTail` handles the rest. -/
def camelSub : List Char → List Char
  | [] => []
  | c :: rest => c :: camelTail rest

/-- Embeds `Utils.camel_case_to_snake_case`:
`re.sub(r'(?<!^)(?=[A-Z])', '_', text).lower()`. -/
def camel_case_to_snake_case (text : String) : String :=
  ⟨(camelSub text.data).map toLowerAscii⟩

/-- Embeds the `while i * i <= number` loop of `Utils.is_prime`, entered at
`i = 5`: reject if `i` or `i + 2` divides `number`, else advance by 6. -/
def trialLoop (number : Nat) (i : Nat) : Bool :=
  if h : i * i ≤ number then
    if number % i = 0 ∨ number % (i + 2) = 0 then false
    else trialLoop number (i + 6)
  else true
termination_by number + 1 - i
decreasing_by
  rcases Nat.eq_zero_or_pos i with h0 | h0
  · subst h0; omega
  · have h2 : i ≤ i * i := Nat.le_mul_of_pos_left i h0
    omega

/-- Embeds `Utils.is_prime`.  The argument is an `Int` as in Python; the loop
is reached only when `number > 3`, where `Int` and `Nat` arithmetic (and
Python's `%`) agree, so the loop runs on `number.toNat`. -/
def is_prime (number : Int) : Bool :=
  if number ≤ 1 then false
  else if number ≤ 3 then true
  else if number % 2 = 0 ∨ number % 3 = 0 then false
  else trialLoop number.toNat 5

/-- Embeds `Utils.factorial` (`if number == 0: return 1; return number *
factorial(number - 1)`) with an explicit recursion budget: `none` means the
budget was exhausted before the base case was reached.  The Python recursion
terminates on an input exactly when some finite budget suffices. -/
def factorialFuel : Nat → Int → Option Int
  | 0, _ => none
  | fuel + 1, number =>
    if number = 0 then some 1
    else (factorialFuel fuel (number - 1)).map (fun r => number * r)

/-- `Utils.factorial` terminates on `number` and returns a value. -/
def factorial_terminates (number : Int) : Prop :=
  ∃ fuel result, factorialFuel fuel number = some result

/-- `string.ascii_lowercase`: `a`..`z` (codes 97..122). -/
def ascii_lowercase : List Char :=
  (List.range 26).map (fun k => Char.ofNat (97 + k))

/-- `string.ascii_uppercase`: `A`..`Z` (codes 65..90). -/
def ascii_uppercase : List Char :=
  (List.range 26).map (fun k => Char.ofNat (65 + k))

/-- `string.ascii_letters` = lowercase ++ uppercase. -/
def ascii_letters : List Char :=
  ascii_lowercase ++ ascii_uppercase

/-- `string.digits`: `0`..`9` (codes 48..57). -/
def string_digits : List Char :=
  (List.range 10).map (fun k => Char.ofNat (48 + k))

/-- `string.punctuation`: the 32 ASCII punctuation characters, i.e. the
printable ASCII characters that are neither letters, digits nor space
(codes 33..47, 58..64, 91..96, 123..126). -/
def string_punctuation : List Char :=
  ((List.range 128).filter (fun k =>
    decide ((33 ≤ k ∧ k ≤ 47) ∨ (58 ≤ k ∧ k ≤ 64) ∨
      (91 ≤ k ∧ k ≤ 96) ∨ (123 ≤ k ∧ k ≤ 126)))).map Char.ofNat

/-- The alphabet `characters = string.ascii_letters + string.digits +
string.punctuation` of `Utils.generate_random_password`. -/
def characters : List Char :=
  ascii_letters ++ string_digits ++ string_punctuation

/-- Embeds `Utils.generate_random_password`.  Randomness is injected as a
source `randSrc`: the `k`-th call of `random.choice(characters)` returns the
element at index `randSrc k % characters.length` (every `random.choice` call
returns some element of the sequence, i.e. some in-range index).  Python's
`range(length)` is empty for `length ≤ 0`, which `Int.toNat` reproduces. -/
def generate_random_password (length : Int) (randSrc : Nat → Nat) : String :=
  ⟨(List.range length.toNat).map (fun k =>
    characters.getD (randSrc k % characters.length) (Char.ofNat 97))⟩

/-- The error raised by `hashlib.new` on an unknown algorithm name
(a `ValueError: unsupported hash type` in CPython). -/
inductive HashError : Type
  | unsupportedAlgorithm
deriving DecidableEq

/-- Model of the set of algorithm names accepted by `hashlib.new`: the
always-available algorithms (`hashlib.algorithms_guaranteed`, minus the
variable-length `shake` digests, whose `hexdigest` needs an extra argument
and is never produced by `Utils.calculate_hash`). -/
def hashlib_algorithm_names : List String :=
  ["md5", "sha1", "sha224", "sha256", "sha384", "sha512",
   "sha3_224", "sha3_256", "sha3_384", "sha3_512", "blake2b", "blake2s"]

/-- The documented digest size in bytes of each supported algorithm. -/
def digest_size (algorithm : String) : Nat :=
  if algorithm = "md5" then 16
  else if algorithm = "sha1" then 20
  else if algorithm = "sha224" ∨ algorithm = "sha3_224" then 28
  else if algorithm = "sha256" ∨ algorithm = "sha3_256" ∨ algorithm = "blake2s" then 32
  else if algorithm = "sha384" ∨ algorithm = "sha3_384" then 48
  else 64

/-- Modelled from the spec: the digest computation itself (`hashlib`'s MD5,
SHA-1, ... compression functions) is a platform cryptographic primitive, not
code of this repository; the spec constrains only its interface — a byte
string of the algorithm's digest size.  We model it as such (the byte values
are irrelevant to every claim and are fixed to 0). -/
def digestBytes (algorithm : String) (_data : List Nat) : List Nat :=
  List.replicate (digest_size algorithm) 0

/-- One lowercase hexadecimal digit: `0`..`9` for values below 10,
`a`..`f` (codes 97..102) for 10..15. -/
def hexChar (k : Nat) : Char :=
  if k < 10 then Char.ofNat (48 + k) else Char.ofNat (87 + k)

/-- `hexdigest()`: each byte rendered as two lowercase hex digits, high
nibble first. -/
def hexdigest (bytes : List Nat) : List Char :=
  bytes.foldr (fun b acc => hexChar (b / 16 % 16) :: hexChar (b % 16) :: acc) []

/-- `text.encode('utf-8')`, abstracted to the sequence of code points (the
digest model does not inspect the bytes, so the exact encoding is
irrelevant to the claims). -/
def utf8_bytes (text : String) : List Nat :=
  text.data.map Char.toNat

/-- A lowercase hexadecimal digit, as a character predicate. -/
def isHexDigitChar (c : Char) : Bool :=
  (48 ≤ c.toNat && c.toNat ≤ 57) || (97 ≤ c.toNat && c.toNat ≤ 102)

/-- Embeds `Utils.calculate_hash`: `hashlib.new(algorithm)` raises on an
unknown name; otherwise the UTF-8 bytes of `text` are hashed and the hex
digest returned. -/
def calculate_hash (text : String) (algorithm : String) : Except HashError String :=
  if hashlib_algorithm_names.contains algorithm then
    .ok ⟨hexdigest (digestBytes algorithm (utf8_bytes text))⟩
  else .error .unsupportedAlgorithm

/-- The file-system state visible to `Utils.create_directory`: the set of
existing paths (directories or files), as a list. -/
structure FileSystem : Type where
  paths : List String
deriving DecidableEq

/-- The error raised by `os.makedirs` on an already-existing path
(`FileExistsError`). -/
inductive OSError : Type
  | fileExistsError
deriving DecidableEq

/-- `os.path.exists(path)`. -/
def os_path_exists (fs : FileSystem) (path : String) : Bool :=
  fs.paths.contains path

/-- The directories brought into existence by `os.makedirs(path)`: the path
itself together with every ancestor prefix (cumulative `/`-separated
prefixes of the path). -/
def makedirs_created (path : String) : List String :=
  path :: (List.range (path.splitOn "/").length).map
    (fun k => String.intercalate "/" ((path.splitOn "/").take (k + 1)))

/-- `os.makedirs(path)` (default `exist_ok=False`): raises `FileExistsError`
if the path exists, otherwise creates the path and its missing ancestors. -/
def os_makedirs (fs : FileSystem) (path : String) : Except OSError FileSystem :=
  if os_path_exists fs path then .error .fileExistsError
  else .ok ⟨makedirs_created path ++ fs.paths⟩

/-- Embeds `Utils.create_directory`: `if not os.path.exists(directory):
os.makedirs(directory)` — a no-op (returning the state unchanged) when the
path already exists. -/
def create_directory (fs : FileSystem) (directory : String) : Except OSError FileSystem :=
  if os_path_exists fs directory then .ok fs
  else os_makedirs fs directory

/-! ### Helper lemmas -/

theorem mem_pySetList {α : Type} [DecidableEq α] (x : α) (seen l : List α) :
    x ∈ pySetList seen l ↔ x ∈ l ∧ x ∉ seen := by
  induction l generalizing seen with
  | nil => simp [pySetList]
  | cons a l ih =>
    by_cases ha : a ∈ seen
    · rw [pySetList, if_pos ha, ih]
      simp only [List.mem_cons]
      constructor
      · rintro ⟨hx, hs⟩
        exact ⟨Or.inr hx, hs⟩
      · rintro ⟨hx | hx, hs⟩
        · exact absurd (hx ▸ ha) hs
        · exact ⟨hx, hs⟩
    · rw [pySetList, if_neg ha]
      simp only [List.mem_cons, ih]
      constructor
      · rintro (rfl | ⟨hx, hs⟩)
        · exact ⟨Or.inl rfl, ha⟩
        · exact ⟨Or.inr hx, fun hin => hs (Or.inr hin)⟩
      · rintro ⟨hx | hx, hs⟩
        · exact Or.inl hx
        · by_cases hxa : x = a
          · exact Or.inl hxa
          · exact Or.inr ⟨hx, fun hin => hin.elim hxa hs⟩

theorem nodup_pySetList {α : Type} [DecidableEq α] (seen l : List α) :
    (pySetList seen l).Nodup := by
  induction l generalizing seen with
  | nil => simp [pySetList]
  | cons a l ih =>
    by_cases ha : a ∈ seen
    · rw [pySetList, if_pos ha]
      exact ih seen
    · rw [pySetList, if_neg ha]
      refine List.Pairwise.cons ?_ (ih (a :: seen))
      intro b hb
      have hm := (mem_pySetList b (a :: seen) l).mp hb
      exact fun he => hm.2 (he ▸ List.mem_cons_self a seen)

theorem pairwise_pySetList {α : Type} [DecidableEq α] (seen l : List α) :
    (pySetList seen l).Pairwise (fun a b => l.indexOf a < l.indexOf b) := by
  induction l generalizing seen with
  | nil => simp [pySetList]
  | cons a l ih =>
    by_cases ha : a ∈ seen
    · rw [pySetList, if_pos ha]
      refine List.Pairwise.imp_of_mem ?_ (ih seen)
      intro x y hx hy hxy
      have hxm := (mem_pySetList x seen l).mp hx
      have hym := (mem_pySetList y seen l).mp hy
      have hxa : x ≠ a := fun he => hxm.2 (he ▸ ha)
      have hya : y ≠ a := fun he => hym.2 (he ▸ ha)
      rw [List.indexOf_cons_ne l (fun he => hxa he.symm),
          List.indexOf_cons_ne l (fun he => hya he.symm)]
      omega
    · rw [pySetList, if_neg ha]
      refine List.Pairwise.cons ?_ ?_
      · intro b hb
        have hm := (mem_pySetList b (a :: seen) l).mp hb
        have hba : b ≠ a := fun he => hm.2 (he ▸ List.mem_cons_self a seen)
        rw [List.indexOf_cons_self, List.indexOf_cons_ne l (fun he => hba he.symm)]
        omega
      · refine List.Pairwise.imp_of_mem ?_ (ih (a :: seen))
        intro x y hx hy hxy
        have hxm := (mem_pySetList x (a :: seen) l).mp hx
        have hym := (mem_pySetList y (a :: seen) l).mp hy
        have hxa : x ≠ a := fun he => hxm.2 (he ▸ List.mem_cons_self a seen)
        have hya : y ≠ a := fun he => hym.2 (he ▸ List.mem_cons_self a seen)
        rw [List.indexOf_cons_ne l (fun he => hxa he.symm),
            List.indexOf_cons_ne l (fun he => hya he.symm)]
        omega

theorem mem_pyList {α : Type} [DecidableEq α] (x : α) (l : List α) :
    x ∈ pyList l ↔ x ∈ l := by
  rw [pyList, mem_pySetList]
  simp

theorem nodup_pyList {α : Type} [DecidableEq α] (l : List α) :
    (pyList l).Nodup :=
  nodup_pySetList [] l

theorem pairwise_indexOf_pyList {α : Type} [DecidableEq α] (l : List α) :
    (pyList l).Pairwise (fun a b => l.indexOf a < l.indexOf b) :=
  pairwise_pySetList [] l

theorem trialLoop_false_iff (n i : Nat) :
    trialLoop n i = false ↔
      ∃ t, (i + 6 * t) * (i + 6 * t) ≤ n ∧
        (n % (i + 6 * t) = 0 ∨ n % (i + 6 * t + 2) = 0) := by
  induction i using trialLoop.induct with
  | number => exact n
  | case1 i hle hdiv =>
    rw [trialLoop, dif_pos hle, if_pos hdiv]
    exact iff_of_true rfl ⟨0, by simpa using hle, by simpa using hdiv⟩
  | case2 i hle hdiv ih =>
    rw [trialLoop, dif_pos hle, if_neg hdiv]
    rw [ih]
    constructor
    · rintro ⟨t, h1, h2⟩
      refine ⟨t + 1, ?_, ?_⟩
      · have e : i + 6 * (t + 1) = i + 6 + 6 * t := by ring
        rw [e]; exact h1
      · have e : i + 6 * (t + 1) = i + 6 + 6 * t := by ring
        rw [e]; exact h2
    · rintro ⟨t, h1, h2⟩
      match t with
      | 0 => exact absurd (by simpa using h2) hdiv
      | s + 1 =>
        refine ⟨s, ?_, ?_⟩
        · have e : i + 6 + 6 * s = i + 6 * (s + 1) := by ring
          rw [e]; exact h1
        · have e : i + 6 + 6 * s = i + 6 * (s + 1) := by ring
          rw [e]; exact h2
  | case3 i hle =>
    rw [trialLoop, dif_neg hle]
    constructor
    · intro h
      exact absurd h (by simp)
    · rintro ⟨t, h1, h2⟩
      have hmono : i * i ≤ (i + 6 * t) * (i + 6 * t) :=
        Nat.mul_le_mul (by omega) (by omega)
      omega

theorem factorialFuel_none_of_neg (fuel : Nat) (n : Int) (h : n < 0) :
    factorialFuel fuel n = none := by
  induction fuel generalizing n with
  | zero => rfl
  | succ f ih =>
    show (if n = 0 then some 1
      else (factorialFuel f (n - 1)).map (fun r => n * r)) = none
    rw [if_neg (by omega), ih (n - 1) (by omega)]
    rfl

/-! ### Claim theorems -/

/-- Claim C1: for every integer `n`, `is_prime(n)` returns true if and only if
`n` is a prime number (false for every `n ≤ 1`, true for 2 and 3, and decided
by 6k±1 trial division up to the square root for `n > 3`).  Primality of the
integer `n` is rendered as `2 ≤ n` together with primality of the natural
number `n.toNat`. -/
theorem is_prime_iff_prime (n : Int) :
    is_prime n = true ↔ 2 ≤ n ∧ Nat.Prime n.toNat := by
  unfold is_prime
  by_cases h1 : n ≤ 1
  · rw [if_pos h1]
    exact iff_of_false (by simp) (by rintro ⟨h2, -⟩; omega)
  · rw [if_neg h1]
    by_cases h3 : n ≤ 3
    · rw [if_pos h3]
      have : n = 2 ∨ n = 3 := by omega
      rcases this with rfl | rfl
      · simpa using Nat.prime_two
      · simpa using Nat.prime_three
    · rw [if_neg h3]
      set N := n.toNat with hN
      have hN4 : 4 ≤ N := by omega
      by_cases h23 : n % 2 = 0 ∨ n % 3 = 0
      · rw [if_pos h23]
        refine iff_of_false (by simp) ?_
        rintro ⟨-, hP⟩
        have h2 : N % 2 = 0 ∨ N % 3 = 0 := by omega
        rcases h2 with h2 | h2
        · have hdvd : 2 ∣ N := Nat.dvd_of_mod_eq_zero h2
          rcases hP.eq_one_or_self_of_dvd 2 hdvd with h | h <;> omega
        · have hdvd : 3 ∣ N := Nat.dvd_of_mod_eq_zero h2
          rcases hP.eq_one_or_self_of_dvd 3 hdvd with h | h <;> omega
      · rw [if_neg h23]
        have hN2 : N % 2 ≠ 0 := by omega
        have hN3 : N % 3 ≠ 0 := by omega
        have key : trialLoop N 5 = false ↔ ¬ Nat.Prime N := by
          rw [trialLoop_false_iff]
          constructor
          · rintro ⟨t, hle, hdiv⟩ hP
            set d := 5 + 6 * t with hd
            have hd5 : 5 ≤ d := by omega
            rcases hdiv with hdiv | hdiv
            · have hdvd : d ∣ N := Nat.dvd_of_mod_eq_zero hdiv
              rcases hP.eq_one_or_self_of_dvd d hdvd with h | h
              · omega
              · have : 2 * d ≤ d * d := Nat.mul_le_mul (by omega) (le_refl d)
                omega
            · have hdvd : (d + 2) ∣ N := Nat.dvd_of_mod_eq_zero hdiv
              rcases hP.eq_one_or_self_of_dvd (d + 2) hdvd with h | h
              · omega
              · have : 5 * d ≤ d * d := Nat.mul_le_mul (by omega) (le_refl d)
                omega
          · intro hP
            set p := N.minFac with hp
            have hPp : Nat.Prime p := Nat.minFac_prime (by omega)
            have hdvd : p ∣ N := Nat.minFac_dvd N
            have hsq : p * p ≤ N := by
              have h2 := Nat.minFac_sq_le_self (n := N) (by omega) hP
              calc p * p = p ^ 2 := by ring
                _ ≤ N := h2
            have hmod : N % p = 0 := Nat.mod_eq_zero_of_dvd hdvd
            have hp2 : p ≠ 2 := by
              intro he
              rw [he] at hmod
              exact hN2 hmod
            have hp3 : p ≠ 3 := by
              intro he
              rw [he] at hmod
              exact hN3 hmod
            have hpge : 2 ≤ p := hPp.two_le
            have hpm2 : p % 2 ≠ 0 := by
              intro h
              rcases hPp.eq_one_or_self_of_dvd 2 (Nat.dvd_of_mod_eq_zero h) with h | h <;> omega
            have hpm3 : p % 3 ≠ 0 := by
              intro h
              rcases hPp.eq_one_or_self_of_dvd 3 (Nat.dvd_of_mod_eq_zero h) with h | h <;> omega
            have hp6 : p % 6 = 1 ∨ p % 6 = 5 := by omega
            rcases hp6 with hp6 | hp6
            · have hp7 : 7 ≤ p := by omega
              refine ⟨(p - 7) / 6, ?_, ?_⟩
              · have e : 5 + 6 * ((p - 7) / 6) = p - 2 := by omega
                rw [e]
                have : (p - 2) * (p - 2) ≤ p * p := Nat.mul_le_mul (by omega) (by omega)
                omega
              · have e : 5 + 6 * ((p - 7) / 6) + 2 = p := by omega
                rw [e]
                exact Or.inr hmod
            · refine ⟨(p - 5) / 6, ?_, ?_⟩
              · have e : 5 + 6 * ((p - 5) / 6) = p := by omega
                rw [e]
                exact hsq
              · have e : 5 + 6 * ((p - 5) / 6) = p := by omega
                rw [e]
                exact Or.inl hmod
        constructor
        · intro h
          refine ⟨by omega, ?_⟩
          by_contra hP
          rw [← key] at hP
          rw [h] at hP
          exact absurd hP (by simp)
        · rintro ⟨-, hP⟩
          cases hb : trialLoop N 5 with
          | false => exact absurd (key.mp hb) (not_not_intro hP)
          | true => rfl

/-- Claim C2 counterexample: `factorial` does not terminate on the integer
`-1`: no recursion budget, however large, reaches the base case, because the
argument only moves further from 0. -/
theorem factorial_diverges_on_neg_one : ¬ factorial_terminates (-1) := by
  rintro ⟨fuel, r, h⟩
  rw [factorialFuel_none_of_neg fuel (-1) (by norm_num)] at h
  exact Option.noConfusion h

/-- Claim C2 (amended): every operation other than `factorial` on negative
input terminates; `factorial n` terminates for every `n ≥ 0` (with recursion
depth `n + 1`) and returns `n!`, but for negative `n` the recursion never
reaches the base case (in CPython it aborts with `RecursionError`). -/
theorem factorial_terminates_of_nonneg (n : Int) (h : 0 ≤ n) :
    factorialFuel (n.toNat + 1) n = some (Nat.factorial n.toNat) := by
  obtain ⟨k, rfl⟩ : ∃ k : Nat, n = (k : Int) := ⟨n.toNat, by omega⟩
  clear h
  induction k with
  | zero => rfl
  | succ m ih =>
    have e1 : ((m + 1 : Nat) : Int).toNat = m + 1 := by omega
    rw [e1]
    show (if ((m + 1 : Nat) : Int) = 0 then some 1
      else (factorialFuel (m + 1) (((m + 1 : Nat) : Int) - 1)).map
        (fun r => ((m + 1 : Nat) : Int) * r)) = some (Nat.factorial (m + 1))
    rw [if_neg (by omega)]
    have e2 : ((m + 1 : Nat) : Int) - 1 = (m : Int) := by omega
    rw [e2]
    have e3 : ((m : Nat) : Int).toNat = m := by omega
    rw [e3] at ih
    rw [ih]
    rfl

/-- Witness for the amended claim C2 at the concrete input 5. -/
theorem factorial_terminates_of_nonneg_check :
    (0 : Int) ≤ 5 ∧ factorialFuel 6 5 = some 120 := by
  refine ⟨by norm_num, ?_⟩
  have h := factorial_terminates_of_nonneg 5 (by norm_num)
  norm_num [Nat.factorial] at h
  exact h

/-- Claim C3 counterexample: the lists returned by `list_union(a, b)` and
`list_union(b, a)` differ at `a = [0]`, `b = [8]`.  (In CPython the same
input exhibits the asymmetry: 0 and 8 collide in the initial 8-slot hash
table, so whichever set is copied first contributes its element to the lower
slot and the two unions iterate in opposite orders.) -/
theorem list_union_order_counterexample :
    list_union ([0] : List Int) [8] = [0, 8] ∧
    list_union ([8] : List Int) [0] = [8, 0] ∧
    list_union ([0] : List Int) [8] ≠ list_union [8] [0] := by
  refine ⟨by decide, by decide, by decide⟩

/-- Claim C3 (amended): `list_union(a, b)` and `list_union(b, a)` are equal
as sets — permutations of each other, with every element occurring exactly
once and membership being membership in `a` or in `b` — though not
necessarily equal as lists; and every element of `list_intersection(a, b)`
is an element of `a` and an element of `b`. -/
theorem list_union_setwise_comm {α : Type} [DecidableEq α] (a b : List α) :
    (list_union a b).Perm (list_union b a) ∧
    (list_union a b).Nodup ∧
    (∀ x, x ∈ list_union a b ↔ x ∈ a ∨ x ∈ b) ∧
    (∀ x, x ∈ list_intersection a b → x ∈ a ∧ x ∈ b) := by
  have hmem : ∀ x, x ∈ list_union a b ↔ x ∈ a ∨ x ∈ b := by
    intro x
    rw [list_union, mem_pyList, List.mem_append]
  refine ⟨?_, nodup_pyList _, hmem, ?_⟩
  · show (pyList (a ++ b)).Perm (pyList (b ++ a))
    rw [List.perm_ext_iff_of_nodup (nodup_pyList _) (nodup_pyList _)]
    intro x
    rw [mem_pyList, mem_pyList, List.mem_append, List.mem_append]
    exact Or.comm
  · intro x hx
    rw [list_intersection, List.mem_filter, mem_pyList, decide_eq_true_eq] at hx
    exact hx

/-- Witness for the amended claim C3 at `a = [1, 2]`, `b = [2, 3]`, `x = 2`. -/
theorem list_union_setwise_comm_check :
    (2 : Int) ∈ ([1, 2] : List Int) ∧ (2 : Int) ∈ ([2, 3] : List Int) :=
  (list_union_setwise_comm [1, 2] [2, 3]).2.2.2 2 (by decide)

theorem toLowerAscii_ne_underscore (c : Char) (h : isUpperAscii c = true) :
    toLowerAscii c ≠ '_' := by
  intro he
  rw [toLowerAscii, if_pos h] at he
  rw [isUpperAscii] at h
  simp only [Bool.and_eq_true, decide_eq_true_eq] at h
  obtain ⟨h1, h2⟩ := h
  generalize hg : c.toNat = k at h1 h2 he
  interval_cases k <;> exact absurd he (by decide)

/-- Claim C4: `camel_case_to_snake_case` never inserts a separator before an
uppercase letter in first position — for an input starting with an uppercase
letter the output does not start with an underscore — and
`camel_case_to_snake_case("HelloWorld") = "hello_world"`. -/
theorem camel_case_no_leading_underscore (c : Char) (cs : List Char)
    (h : isUpperAscii c = true) :
    (camel_case_to_snake_case ⟨c :: cs⟩).data.head? ≠ some '_' ∧
    camel_case_to_snake_case "HelloWorld" = "hello_world" := by
  constructor
  · have e : (camel_case_to_snake_case ⟨c :: cs⟩).data
        = toLowerAscii c :: (camelTail cs).map toLowerAscii := rfl
    rw [e]
    simp only [List.head?_cons, ne_eq, Option.some.injEq]
    exact fun he => toLowerAscii_ne_underscore c h he
  · decide

/-- Witness for claim C4 at the input "HelloWorld". -/
theorem camel_case_no_leading_underscore_check :
    isUpperAscii 'H' = true ∧
    (camel_case_to_snake_case ⟨'H' :: "elloWorld".data⟩).data.head? ≠ some '_' :=
  ⟨by decide, (camel_case_no_leading_underscore 'H' "elloWorld".data (by decide)).1⟩

/-- Claim C5 counterexample: `remove_duplicates("HelloWorld")` is
`"HeloWrd"`, not the claimed `"Helowrd"`: the set of characters is
case-sensitive, the string contains an uppercase `W` and no lowercase
`w`. -/
theorem remove_duplicates_example_counterexample :
    remove_duplicates "HelloWorld" = "HeloWrd" ∧
    remove_duplicates "HelloWorld" ≠ "Helowrd" := by
  refine ⟨by decide, by decide⟩

/-- Claim C5 (amended): for every string `s`, `remove_duplicates(s)` contains
each distinct character of `s` exactly once, in the order of each
character's first occurrence in `s`; in particular
`remove_duplicates("HelloWorld") = "HeloWrd"`.  "Exactly once" is duplicate
freeness plus membership preservation; "first-occurrence order" says the
first-occurrence indices are strictly increasing along the output. -/
theorem remove_duplicates_first_occurrence (s : String) :
    (remove_duplicates s).data.Nodup ∧
    (∀ c, c ∈ (remove_duplicates s).data ↔ c ∈ s.data) ∧
    (remove_duplicates s).data.Pairwise
      (fun a b => s.data.indexOf a < s.data.indexOf b) ∧
    remove_duplicates "HelloWorld" = "HeloWrd" := by
  refine ⟨nodup_pyList _, ?_, pairwise_indexOf_pyList _, by decide⟩
  intro c
  exact mem_pyList c s.data

/-- Claim C6: `calculate_hash` fails with the unsupported-algorithm error
when the algorithm name is unknown, and succeeds for `md5`, `sha1` and
`sha256`, returning a string of lowercase hex digits of twice the digest
size. -/
theorem calculate_hash_spec (text alg : String) :
    (hashlib_algorithm_names.contains alg = false →
      calculate_hash text alg = .error .unsupportedAlgorithm) ∧
    (alg = "md5" ∨ alg = "sha1" ∨ alg = "sha256" →
      ∃ d : String, calculate_hash text alg = .ok d ∧
        d.length = 2 * digest_size alg ∧ d.data.all isHexDigitChar = true) := by
  constructor
  · intro h
    have hne : ¬ (hashlib_algorithm_names.contains alg = true) := by
      rw [h]
      exact Bool.false_ne_true
    rw [calculate_hash, if_neg hne]
  · have hok : ∀ alg2 : String, hashlib_algorithm_names.contains alg2 = true →
        calculate_hash text alg2
          = .ok ⟨hexdigest (List.replicate (digest_size alg2) 0)⟩ := by
      intro alg2 h2
      rw [calculate_hash, if_pos h2]
      rfl
    rintro (rfl | rfl | rfl)
    · exact ⟨_, hok "md5" (by decide), by decide, by decide⟩
    · exact ⟨_, hok "sha1" (by decide), by decide, by decide⟩
    · exact ⟨_, hok "sha256" (by decide), by decide, by decide⟩

/-- Witness for claim C6: a rejected unknown name and an accepted `md5`. -/
theorem calculate_hash_spec_check :
    calculate_hash "HelloWorld" "nosuch"
      = .error .unsupportedAlgorithm ∧
    ∃ d : String, calculate_hash "HelloWorld" "md5" = .ok d ∧
      d.length = 2 * digest_size "md5" ∧ d.data.all isHexDigitChar = true :=
  ⟨(calculate_hash_spec "HelloWorld" "nosuch").1 (by decide),
   (calculate_hash_spec "HelloWorld" "md5").2 (Or.inl rfl)⟩

/-- Claim C7: `create_directory` is idempotent: on an existing path it is a
no-op returning no error, and called twice in a row the second call succeeds
and leaves the file system unchanged. -/
theorem create_directory_idempotent (fs : FileSystem) (d : String) :
    (os_path_exists fs d = true → create_directory fs d = .ok fs) ∧
    (∃ fs2, create_directory fs d = .ok fs2 ∧
      create_directory fs2 d = .ok fs2) := by
  constructor
  · intro h
    rw [create_directory, if_pos h]
  · by_cases h : os_path_exists fs d = true
    · exact ⟨fs, by rw [create_directory, if_pos h], by rw [create_directory, if_pos h]⟩
    · refine ⟨⟨makedirs_created d ++ fs.paths⟩, ?_, ?_⟩
      · rw [create_directory, if_neg h, os_makedirs, if_neg h]
      · have h2 : os_path_exists ⟨makedirs_created d ++ fs.paths⟩ d = true := by
          simp [os_path_exists, makedirs_created, List.contains_cons]
        rw [create_directory, if_pos h2]

/-- Witness for claim C7: an existing path is a no-op; a fresh path can be
created twice in a row. -/
theorem create_directory_idempotent_check :
    create_directory ⟨["a"]⟩ "a" = .ok ⟨["a"]⟩ ∧
    (∃ fs2, create_directory ⟨[]⟩ "b" = .ok fs2 ∧
      create_directory fs2 "b" = .ok fs2) :=
  ⟨(create_directory_idempotent ⟨["a"]⟩ "a").1 (by decide),
   (create_directory_idempotent ⟨[]⟩ "b").2⟩

/-- Claim C8: `reverse_string` is an involution. -/
theorem reverse_string_involution (s : String) :
    reverse_string (reverse_string s) = s := by
  cases s with
  | mk data => simp [reverse_string]

/-- Claim C9: the three list set-operations return duplicate-free lists whose
membership is exactly that of the corresponding set operation. -/
theorem list_ops_set_semantics {α : Type} [DecidableEq α] (a b : List α) (x : α) :
    (x ∈ list_intersection a b ↔ x ∈ a ∧ x ∈ b) ∧
    (x ∈ list_union a b ↔ x ∈ a ∨ x ∈ b) ∧
    (x ∈ list_difference a b ↔ x ∈ a ∧ x ∉ b) ∧
    (list_intersection a b).Nodup ∧
    (list_union a b).Nodup ∧
    (list_difference a b).Nodup := by
  refine ⟨?_, ?_, ?_, (nodup_pyList a).filter _, nodup_pyList _, (nodup_pyList a).filter _⟩
  · rw [list_intersection, List.mem_filter, mem_pyList, decide_eq_true_eq]
  · rw [list_union, mem_pyList, List.mem_append]
  · rw [list_difference, List.mem_filter, mem_pyList, decide_eq_true_eq]

/-- Claim C10: for every length `n ≥ 0` and every randomness source, the
generated password has exactly `n` characters, each drawn from the alphabet
of ASCII letters, digits and punctuation; for `n = 0` it is empty. -/
theorem generate_random_password_spec (n : Int) (randSrc : Nat → Nat)
    (h : 0 ≤ n) :
    (generate_random_password n randSrc).length = n.toNat ∧
    (∀ c, c ∈ (generate_random_password n randSrc).data → c ∈ characters) ∧
    (n = 0 → generate_random_password n randSrc = "") := by
  refine ⟨?_, ?_, ?_⟩
  · show ((List.range n.toNat).map _).length = n.toNat
    rw [List.length_map, List.length_range]
  · intro c hc
    show c ∈ characters
    obtain ⟨k, -, rfl⟩ := List.mem_map.mp hc
    have hlen : 0 < characters.length := by decide
    have hlt : randSrc k % characters.length < characters.length :=
      Nat.mod_lt _ hlen
    rw [List.getD_eq_getElem characters _ hlt]
    exact List.getElem_mem hlt
  · rintro rfl
    rfl

/-- Witness for claim C10 at `n = 3` (and `n = 0` for the empty case) with
the identity randomness source. -/
theorem generate_random_password_spec_check :
    (generate_random_password 3 (fun k => k)).length = 3 ∧
    Char.ofNat 97 ∈ characters ∧
    generate_random_password 0 (fun k => k) = "" := by
  have h3 := generate_random_password_spec 3 (fun k => k) (by norm_num)
  have h0 := generate_random_password_spec 0 (fun k => k) (by norm_num)
  refine ⟨by simpa using h3.1, ?_, h0.2.2 rfl⟩
  exact h3.2.1 (Char.ofNat 97) (by decide)

end Utils
